import Mathlib

/-!
Verification of the numeric pipeline of the Veusz UME chronoamperometry
loader plugin (source file Veusz-Load_UME_CA.py, class LoadUMEfilesPluginCA).

Machine floats are modelled by rationals (the range codes are integers and
every comparison the code performs on derived values is an exact-zero or
ordering test); the range-change mask builder, the run segmenter, the step
feature estimator, the sequence resolver and the color assigner are each
translated directly from the source.
-/

/-- numpy.diff (line 460): successive first differences,
element i is code (i+1) - code i; the result is one shorter than the input. -/
def diffSeries (a : List ℤ) : List ℤ :=
  List.zipWith (fun x y => y - x) a a.tail

/-- numpy.bartlett: the triangular window of length M, translated from the
numpy definition: empty for M < 1, the single value 1 for M = 1, and
otherwise, with n ranging over 1-M, 3-M, ..., M-1 (step 2), the value
1 + n/(M-1) for n <= 0 and 1 - n/(M-1) for n > 0. -/
def bartlett (M : ℕ) : List ℚ :=
  if M < 1 then []
  else if M = 1 then [1]
  else (List.range M).map (fun k : ℕ =>
    if (1 - (M : ℚ) + 2 * (k : ℚ)) ≤ 0 then 1 + (1 - (M : ℚ) + 2 * (k : ℚ)) / ((M : ℚ) - 1)
    else 1 - (1 - (M : ℚ) + 2 * (k : ℚ)) / ((M : ℚ) - 1))

/-- numpy.convolve in its default full (non-trimmed) mode: output index i
holds the sum over j of a j * w (i - j); the output length is
a.length + w.length - 1 (a and w nonempty in every use below). -/
def convolveFull (a w : List ℚ) : List ℚ :=
  (List.range (a.length + w.length - 1)).map (fun i =>
    Finset.sum (Finset.range (i + 1)) (fun j => a.getD j 0 * w.getD (i - j) 0))

/-- Line 475 of the source: the first differences of the range-code series
convolved with a Bartlett window of length spread_size. -/
def I_change_dataset_spread (code : List ℤ) (M : ℕ) : List ℚ :=
  convolveFull ((diffSeries code).map (fun z : ℤ => (z : ℚ))) (bartlett M)

/-- Lines 487-491 of the source: the stored reliability mask,
logical_not of make_mask of the convolved series, i.e. true exactly where
the convolved value is exactly zero. -/
def I_change_mask (code : List ℤ) (M : ℕ) : List Bool :=
  (I_change_dataset_spread code M).map (fun q => decide (q = 0))

lemma getD_map_ratCast (l : List ℤ) (j : ℕ) :
    (l.map (fun z : ℤ => (z : ℚ))).getD j 0 = ((l.getD j 0 : ℤ) : ℚ) := by
  rcases Nat.lt_or_ge j l.length with h | h
  · rw [List.getD_eq_getElem _ _ (by simpa using h), List.getD_eq_getElem _ _ h,
      List.getElem_map]
  · rw [List.getD_eq_default _ _ (by simpa using h), List.getD_eq_default _ _ h]
    simp

lemma I_change_dataset_spread_getElem (code : List ℤ) (M : ℕ) (i : ℕ)
    (hi : i < (I_change_dataset_spread code M).length) :
    (I_change_dataset_spread code M)[i] =
      Finset.sum (Finset.range (i + 1))
        (fun j => ((diffSeries code).getD j 0 : ℚ) * (bartlett M).getD (i - j) 0) := by
  simp only [I_change_dataset_spread, convolveFull, List.getElem_map, List.getElem_range]
  exact Finset.sum_congr rfl (fun j _ => by rw [getD_map_ratCast])

lemma I_change_mask_length (code : List ℤ) (M : ℕ) :
    (I_change_mask code M).length =
      (diffSeries code).length + (bartlett M).length - 1 := by
  simp [I_change_mask, I_change_dataset_spread, convolveFull]

lemma bartlett_length (M : ℕ) (h1 : 1 ≤ M) : (bartlett M).length = M := by
  unfold bartlett
  rw [if_neg (by omega)]
  by_cases h : M = 1
  · simp [h]
  · rw [if_neg h]
    simp

lemma diffSeries_length (a : List ℤ) : (diffSeries a).length = a.length - 1 := by
  simp [diffSeries]

/-- C1. For every range-code series of length at least 2 and every window
width at least 1, the stored mask is true at exactly the positions where
the full convolution of the first differences with the Bartlett window is
exactly zero, and false wherever that value is non-zero. -/
theorem mask_iff_conv_zero (code : List ℤ) (M : ℕ)
    (h2 : 2 ≤ code.length) (h1 : 1 ≤ M)
    (i : ℕ) (hi : i < (I_change_mask code M).length) :
    ((I_change_mask code M).getD i false = true ↔
      Finset.sum (Finset.range (i + 1))
        (fun j => ((diffSeries code).getD j 0 : ℚ) * (bartlett M).getD (i - j) 0) = 0) := by
  have hi' : i < (I_change_dataset_spread code M).length := by
    simpa [I_change_mask] using hi
  rw [List.getD_eq_getElem _ _ hi]
  simp only [I_change_mask, List.getElem_map]
  rw [I_change_dataset_spread_getElem code M i hi']
  exact decide_eq_true_iff

/-- Witness for C1 at code = [1,1,2], spread_size = 4, position 2: the mask
value there is false and the convolved value is non-zero. -/
theorem mask_iff_conv_zero_witness :
    2 ≤ ([1, 1, 2] : List ℤ).length ∧ 1 ≤ 4 ∧
    ((I_change_mask [1, 1, 2] 4).getD 2 false = true ↔
      Finset.sum (Finset.range 3)
        (fun j => ((diffSeries [1, 1, 2]).getD j 0 : ℚ) * (bartlett 4).getD (2 - j) 0) = 0) ∧
    (I_change_mask [1, 1, 2] 4).getD 2 false = false := by
  have hconv : I_change_dataset_spread [1, 1, 2] 4 = [0, 0, 2/3, 2/3, 0] := by
    norm_num [I_change_dataset_spread, convolveFull, diffSeries, bartlett,
      List.range_succ, Finset.sum_range_succ]
  refine ⟨by decide, by decide,
    mask_iff_conv_zero [1, 1, 2] 4 (by decide) (by decide) 2 (by decide), ?_⟩
  norm_num [I_change_mask, hconv]

/-- C6 counterexample: for code = [1,2] (length 2) and spread_size = 4 the
stored mask has length 4, not length 2 + 4 = 6; so the mask does not exceed
the signal length by spread_size elements. -/
theorem mask_length_counterexample :
    ([1, 2] : List ℤ).length = 2 ∧ (I_change_mask [1, 2] 4).length = 4 ∧
      (I_change_mask [1, 2] 4).length ≠ ([1, 2] : List ℤ).length + 4 := by
  refine ⟨by decide, by decide, by decide⟩

/-- C6 amended: for every range-code series of length L at least 2 and every
spread_size at least 1, the stored mask has length L + spread_size - 2,
i.e. it exceeds the signal length by exactly spread_size - 2 elements. -/
theorem mask_length_excess (code : List ℤ) (M : ℕ)
    (h2 : 2 ≤ code.length) (h1 : 1 ≤ M) :
    (I_change_mask code M).length = code.length + M - 2 := by
  rw [I_change_mask_length, bartlett_length M h1, diffSeries_length]
  omega

/-- Witness for the amended C6 at code = [1,2], spread_size = 4. -/
theorem mask_length_excess_witness :
    2 ≤ ([1, 2] : List ℤ).length ∧
      (I_change_mask [1, 2] 4).length = ([1, 2] : List ℤ).length + 4 - 2 :=
  ⟨by decide, mask_length_excess [1, 2] 4 (by decide) (by decide)⟩

lemma bartlett_eq_map (M : ℕ) (hM : 2 ≤ M) :
    bartlett M = (List.range M).map (fun k : ℕ =>
      if (1 - (M : ℚ) + 2 * (k : ℚ)) ≤ 0 then 1 + (1 - (M : ℚ) + 2 * (k : ℚ)) / ((M : ℚ) - 1)
      else 1 - (1 - (M : ℚ) + 2 * (k : ℚ)) / ((M : ℚ) - 1)) := by
  unfold bartlett
  rw [if_neg (by omega), if_neg (by omega)]

lemma getD_map_range (f : ℕ → ℚ) (M n : ℕ) (h : n < M) :
    ((List.range M).map f).getD n 0 = f n := by
  rw [List.getD_eq_getElem _ _ (by simpa using h), List.getElem_map, List.getElem_range]

/-- The entries of the Bartlett window of length M (M at least 2) vanish at
the two endpoints and only there; entries beyond the window default to 0. -/
lemma bartlett_getD_zero_iff (M : ℕ) (hM : 2 ≤ M) (n : ℕ) :
    ((bartlett M).getD n 0 = 0) ↔ (n = 0 ∨ M - 1 ≤ n) := by
  have h1 : 1 ≤ M := by omega
  have hMq : (2 : ℚ) ≤ (M : ℚ) := by exact_mod_cast hM
  have hc : ((M : ℚ) - 1) ≠ 0 := by linarith
  rcases Nat.lt_or_ge n M with hn | hn
  · rw [bartlett_eq_map M hM, getD_map_range _ M n hn]
    by_cases hle : (1 - (M : ℚ) + 2 * (n : ℚ)) ≤ 0
    · rw [if_pos hle]
      have hA : 2 * n + 1 ≤ M := by
        have : (2 * (n : ℚ) + 1) ≤ (M : ℚ) := by linarith
        exact_mod_cast this
      constructor
      · intro hv
        left
        have h2n : (n : ℚ) = 0 := by
          field_simp at hv
          linarith
        exact_mod_cast h2n
      · intro h
        have hn0 : n = 0 := by omega
        subst hn0
        push_cast
        field_simp
    · rw [if_neg hle]
      push_neg at hle
      have hB : M ≤ 2 * n := by
        have : (M : ℚ) < 2 * (n : ℚ) + 1 := by linarith
        have := this
        exact_mod_cast Nat.lt_succ_iff.mp (by exact_mod_cast this)
      constructor
      · intro hv
        right
        have hx : (n : ℚ) + 1 = (M : ℚ) := by
          field_simp at hv
          linarith
        have : n + 1 = M := by exact_mod_cast hx
        omega
      · intro h
        have hEq : n = M - 1 := by omega
        have hcast : (n : ℚ) = (M : ℚ) - 1 := by
          rw [hEq]
          push_cast [Nat.cast_sub h1]
          ring
        rw [hcast]
        field_simp
        ring
  · rw [List.getD_eq_default _ _ (by rw [bartlett_length M h1]; exact hn)]
    exact iff_of_true rfl (Or.inr (by omega))

lemma conv_single_term (code : List ℤ) (M : ℕ) (p : ℕ)
    (hq : ∀ j : ℕ, j ≠ p → (diffSeries code).getD j 0 = 0) (i : ℕ) :
    Finset.sum (Finset.range (i + 1))
      (fun j => ((diffSeries code).getD j 0 : ℚ) * (bartlett M).getD (i - j) 0) =
    (if p ≤ i then ((diffSeries code).getD p 0 : ℚ) * (bartlett M).getD (i - p) 0 else 0) := by
  by_cases hpi : p ≤ i
  · rw [if_pos hpi]
    refine Finset.sum_eq_single_of_mem p (Finset.mem_range.mpr (by omega)) ?_
    intro j _ hne
    rw [hq j hne]
    simp
  · rw [if_neg hpi]
    refine Finset.sum_eq_zero ?_
    intro j hj
    have hne : j ≠ p := by
      rw [Finset.mem_range] at hj
      omega
    rw [hq j hne]
    simp

/-- C10. For every window width of at least 3 and a range-code series whose
first differences are non-zero at exactly one position p, the stored mask
(before truncation) is false exactly on the contiguous band of positions
p+1 .. p+M-2, a band of exactly M-2 samples lying wholly inside the mask. -/
theorem single_change_band (code : List ℤ) (M : ℕ) (h3 : 3 ≤ M) (p : ℕ)
    (hp : (diffSeries code).getD p 0 ≠ 0)
    (hq : ∀ j : ℕ, j ≠ p → (diffSeries code).getD j 0 = 0) :
    p + M - 2 < (I_change_mask code M).length ∧
    ∀ i, i < (I_change_mask code M).length →
      ((I_change_mask code M).getD i false = false ↔ (p + 1 ≤ i ∧ i ≤ p + M - 2)) := by
  have h1 : 1 ≤ M := by omega
  have hpLen : p < (diffSeries code).length := by
    by_contra h
    exact hp (List.getD_eq_default _ _ (by omega))
  have hlen : (I_change_mask code M).length = (diffSeries code).length + M - 1 := by
    rw [I_change_mask_length, bartlett_length M h1]
  refine ⟨by omega, ?_⟩
  intro i hi
  have hi' : i < (I_change_dataset_spread code M).length := by
    simpa [I_change_mask] using hi
  rw [List.getD_eq_getElem _ _ hi]
  simp only [I_change_mask, List.getElem_map]
  rw [I_change_dataset_spread_getElem code M i hi', conv_single_term code M p hq i,
    decide_eq_false_iff_not]
  by_cases hpi : p ≤ i
  · rw [if_pos hpi]
    have hdp : ((diffSeries code).getD p 0 : ℚ) ≠ 0 := by exact_mod_cast hp
    rw [mul_eq_zero, not_or]
    rw [and_iff_right hdp]
    simp only [bartlett_getD_zero_iff M (by omega) (i - p)]
    omega
  · rw [if_neg hpi]
    exact iff_of_false (by simp) (by omega)

/-- Witness for C10 at code = [5,5,5,7,7,7], spread_size = 4 (single change
at difference position 2): the mask is false at position 3 and true at
position 5. -/
theorem single_change_band_witness :
    (I_change_mask [5, 5, 5, 7, 7, 7] 4).getD 3 false = false ∧
    (I_change_mask [5, 5, 5, 7, 7, 7] 4).getD 5 false = true := by
  have h := single_change_band [5, 5, 5, 7, 7, 7] 4 (by omega) 2 (by decide) ?hq
  case hq =>
    intro j hj
    rcases Nat.lt_or_ge j 5 with hlt | hge
    · interval_cases j
      · decide
      · decide
      · exact absurd rfl hj
      · decide
      · decide
    · refine List.getD_eq_default _ _ ?_
      simp only [diffSeries]
      simp
      omega
  constructor
  · exact (h.2 3 (by decide)).mpr (by omega)
  · rcases Bool.eq_false_or_eq_true ((I_change_mask [5, 5, 5, 7, 7, 7] 4).getD 5 false) with ht | hf
    · exact ht
    · exact absurd ((h.2 5 (by decide)).mp hf) (by omega)

/-- Lines 371-384 of the source: the scan state of the Expression-dataset
run extractor. The loop walks the truncated mask with the integer state
(start_index, end_index, prev_mask_value) and appends a pair
(start_index, index) each time the mask falls from 1 to 0. -/
def exprGo : List Bool → ℤ → ℤ → ℤ → ℤ → List (ℤ × ℤ) → List (ℤ × ℤ) × ℤ × ℤ
  | [], _, s, e, _, acc => (acc, s, e)
  | b :: rest, idx, s, e, prev, acc =>
    let mv : ℤ := if b then 1 else 0
    if mv - prev > 0 then exprGo rest (idx + 1) idx e mv acc
    else if mv - prev < 0 then exprGo rest (idx + 1) s idx mv (acc ++ [(s, idx)])
    else exprGo rest (idx + 1) s e mv acc

/-- Lines 385-387 of the source: if the mask is 1 at the end
(end_index < start_index), close the last run at the mask length. -/
def finalizeRuns : List (ℤ × ℤ) × ℤ × ℤ → ℤ → List (ℤ × ℤ)
  | (acc, s, e), L => if e < s then acc ++ [(s, L)] else acc

/-- The complete index-range extraction of the Expression-dataset branch:
scan from index 0 with start_index = end_index = -1 and prev_mask_value = 0,
then close a trailing open run at the mask length. -/
def list_indices (mask : List Bool) : List (ℤ × ℤ) :=
  finalizeRuns (exprGo mask 0 (-1) (-1) 0 []) (mask.length : ℤ)

/-- Specification-side run extractor on natural indices: state none means
outside a run, state some s means a run open since index s. -/
def runsN : List Bool → ℕ → Option ℕ → List (ℕ × ℕ)
  | [], _, none => []
  | [], k, some s => [(s, k)]
  | true :: t, k, none => runsN t (k + 1) (some k)
  | true :: t, k, some s => runsN t (k + 1) (some s)
  | false :: t, k, none => runsN t (k + 1) none
  | false :: t, k, some s => (s, k) :: runsN t (k + 1) none

/-- The indices (from offset k) at which a mask is true. -/
def trueIndices : List Bool → ℕ → List ℕ
  | [], _ => []
  | true :: t, k => k :: trueIndices t (k + 1)
  | false :: t, k => trueIndices t (k + 1)

/-- Concatenation of the index ranges of a list of integer run boundaries. -/
def joinRuns (R : List (ℤ × ℤ)) : List ℤ :=
  (R.map (fun p => (List.range (p.2 - p.1).toNat).map (fun j : ℕ => p.1 + (j : ℤ)))).join

/-- Concatenation of the index ranges of a list of natural run boundaries. -/
def joinRunsN (R : List (ℕ × ℕ)) : List ℕ :=
  (R.map (fun p => (List.range (p.2 - p.1)).map (fun j : ℕ => p.1 + j))).join

def castPair (p : ℕ × ℕ) : ℤ × ℤ := ((p.1 : ℤ), (p.2 : ℤ))

lemma exprGo_cons_00 (rest : List Bool) (idx s e : ℤ) (acc : List (ℤ × ℤ)) :
    exprGo (false :: rest) idx s e 0 acc = exprGo rest (idx + 1) s e 0 acc := by
  simp [exprGo]

lemma exprGo_cons_01 (rest : List Bool) (idx s e : ℤ) (acc : List (ℤ × ℤ)) :
    exprGo (true :: rest) idx s e 0 acc = exprGo rest (idx + 1) idx e 1 acc := by
  simp [exprGo]

lemma exprGo_cons_10 (rest : List Bool) (idx s e : ℤ) (acc : List (ℤ × ℤ)) :
    exprGo (false :: rest) idx s e 1 acc = exprGo rest (idx + 1) s idx 0 (acc ++ [(s, idx)]) := by
  simp [exprGo]

lemma exprGo_cons_11 (rest : List Bool) (idx s e : ℤ) (acc : List (ℤ × ℤ)) :
    exprGo (true :: rest) idx s e 1 acc = exprGo rest (idx + 1) s e 1 acc := by
  simp [exprGo]

/-- The source scan, finalized at the total length, extracts exactly the
maximal true runs described by runsN. -/
lemma exprGo_spec (rest : List Bool) : ∀ (k : ℕ) (s e : ℤ) (acc : List (ℤ × ℤ)),
    (¬ e < s → e < (k : ℤ) →
      finalizeRuns (exprGo rest (k : ℤ) s e 0 acc) ((k + rest.length : ℕ) : ℤ) =
        acc ++ (runsN rest k none).map castPair) ∧
    (∀ sn : ℕ, sn < k → e < (sn : ℤ) →
      finalizeRuns (exprGo rest (k : ℤ) (sn : ℤ) e 1 acc) ((k + rest.length : ℕ) : ℤ) =
        acc ++ (runsN rest k (some sn)).map castPair) := by
  induction rest with
  | nil =>
    intro k s e acc
    constructor
    · intro h1 _
      simp [exprGo, finalizeRuns, if_neg h1, runsN]
    · intro sn _ he
      simp [exprGo, finalizeRuns, if_pos he, runsN, castPair]
  | cons b t ih =>
    intro k s e acc
    have hk1 : ((k : ℤ) + 1) = ((k + 1 : ℕ) : ℤ) := by push_cast; ring
    have hlen1 : (k + (b :: t).length : ℕ) = ((k + 1) + t.length : ℕ) := by
      simp
      omega
    constructor
    · intro h1 h2
      cases b
      · rw [exprGo_cons_00, hk1, hlen1]
        rw [(ih (k + 1) s e acc).1 h1 (by push_cast; omega)]
        simp [runsN]
      · rw [exprGo_cons_01, hk1, hlen1]
        rw [(ih (k + 1) s e acc).2 k (by omega) h2]
        simp [runsN]
    · intro sn hsn he
      cases b
      · rw [exprGo_cons_10, hk1, hlen1]
        rw [(ih (k + 1) (sn : ℤ) (k : ℤ) (acc ++ [((sn : ℤ), (k : ℤ))])).1
          (by push_cast; omega) (by push_cast; omega)]
        simp [runsN, castPair]
      · rw [exprGo_cons_11, hk1, hlen1]
        rw [(ih (k + 1) (sn : ℤ) e acc).2 sn (by omega) he]
        simp [runsN]

lemma list_indices_eq (m : List Bool) :
    list_indices m = (runsN m 0 none).map castPair := by
  have h := (exprGo_spec m 0 (-1) (-1) []).1 (by norm_num) (by norm_num)
  simpa [list_indices] using h

/-- Coverage: the concatenated index ranges of the extracted runs are
exactly the true positions of the mask, in ascending order. -/
lemma runsN_cover (m : List Bool) : ∀ (k : ℕ),
    joinRunsN (runsN m k none) = trueIndices m k ∧
    ∀ s, s ≤ k → joinRunsN (runsN m k (some s)) =
      (List.range (k - s)).map (fun j : ℕ => s + j) ++ trueIndices m k := by
  induction m with
  | nil =>
    intro k
    refine ⟨by simp [runsN, joinRunsN, trueIndices], ?_⟩
    intro s _
    simp [runsN, joinRunsN, trueIndices]
  | cons b t ih =>
    intro k
    cases b
    · refine ⟨?_, ?_⟩
      · simpa [runsN, trueIndices] using (ih (k + 1)).1
      · intro s _
        show joinRunsN ((s, k) :: runsN t (k + 1) none) = _
        have h1 : joinRunsN ((s, k) :: runsN t (k + 1) none) =
            (List.range (k - s)).map (fun j : ℕ => s + j) ++ joinRunsN (runsN t (k + 1) none) := by
          simp [joinRunsN]
        rw [h1, (ih (k + 1)).1]
        simp [trueIndices]
    · refine ⟨?_, ?_⟩
      · show joinRunsN (runsN t (k + 1) (some k)) = _
        rw [(ih (k + 1)).2 k (by omega)]
        have h1 : k + 1 - k = 1 := by omega
        have h2 : List.range 1 = [0] := rfl
        rw [h1, h2]
        simp [trueIndices]
      · intro s hs
        show joinRunsN (runsN t (k + 1) (some s)) = _
        rw [(ih (k + 1)).2 s (by omega)]
        have h1 : k + 1 - s = (k - s) + 1 := by omega
        rw [h1, List.range_succ, List.map_append]
        have h2 : s + (k - s) = k := by omega
        simp [trueIndices, h2]

/-- Every extracted run has a positive length and starts at or after the
scan position (or the open start). -/
lemma runsN_bounds (m : List Bool) : ∀ (k : ℕ),
    (∀ p ∈ runsN m k none, k ≤ p.1 ∧ p.1 < p.2) ∧
    (∀ s, s < k → ∀ p ∈ runsN m k (some s), s ≤ p.1 ∧ p.1 < p.2) := by
  induction m with
  | nil =>
    intro k
    refine ⟨by simp [runsN], ?_⟩
    intro s hs p hp
    simp only [runsN, List.mem_singleton] at hp
    subst hp
    exact ⟨le_refl _, hs⟩
  | cons b t ih =>
    intro k
    cases b
    · refine ⟨?_, ?_⟩
      · intro p hp
        simp only [runsN] at hp
        have h := (ih (k + 1)).1 p hp
        exact ⟨by omega, h.2⟩
      · intro s hs p hp
        simp only [runsN, List.mem_cons] at hp
        rcases hp with h | h
        · subst h
          exact ⟨le_refl _, hs⟩
        · have h2 := (ih (k + 1)).1 p h
          exact ⟨by omega, h2.2⟩
    · refine ⟨?_, ?_⟩
      · intro p hp
        simp only [runsN] at hp
        exact (ih (k + 1)).2 k (by omega) p hp
      · intro s hs p hp
        simp only [runsN] at hp
        exact (ih (k + 1)).2 s (by omega) p hp

/-- The extracted runs are pairwise separated: each run ends at or before
the next one starts. -/
lemma runsN_chain (m : List Bool) : ∀ (k : ℕ),
    List.Chain' (fun p q : ℕ × ℕ => p.2 ≤ q.1) (runsN m k none) ∧
    ∀ s, s < k → List.Chain' (fun p q : ℕ × ℕ => p.2 ≤ q.1) (runsN m k (some s)) := by
  induction m with
  | nil =>
    intro k
    exact ⟨by simp [runsN], fun s _ => by simp [runsN]⟩
  | cons b t ih =>
    intro k
    cases b
    · refine ⟨?_, ?_⟩
      · simpa [runsN] using (ih (k + 1)).1
      · intro s _
        show List.Chain' _ ((s, k) :: runsN t (k + 1) none)
        rw [List.chain'_cons']
        refine ⟨?_, (ih (k + 1)).1⟩
        intro y hy
        have hmem : y ∈ runsN t (k + 1) none := List.mem_of_mem_head? hy
        have hb := (runsN_bounds t (k + 1)).1 y hmem
        show k ≤ y.1
        omega
    · refine ⟨?_, ?_⟩
      · simpa [runsN] using (ih (k + 1)).2 k (by omega)
      · intro s hs
        simpa [runsN] using (ih (k + 1)).2 s (by omega)

lemma joinRuns_map_castPair (R : List (ℕ × ℕ)) :
    joinRuns (R.map castPair) = (joinRunsN R).map (fun n : ℕ => (n : ℤ)) := by
  induction R with
  | nil => simp [joinRuns, joinRunsN]
  | cons p t ih =>
    have htn : (((p.2 : ℤ)) - ((p.1 : ℤ))).toNat = p.2 - p.1 := by omega
    have hL : joinRuns (castPair p :: t.map castPair) =
        (List.range (p.2 - p.1)).map (fun j : ℕ => (p.1 : ℤ) + (j : ℤ)) ++
          joinRuns (t.map castPair) := by
      simp [joinRuns, castPair, htn]
    have hR : (joinRunsN (p :: t)).map (fun n : ℕ => (n : ℤ)) =
        ((List.range (p.2 - p.1)).map (fun j : ℕ => p.1 + j)).map (fun n : ℕ => (n : ℤ)) ++
          (joinRunsN t).map (fun n : ℕ => (n : ℤ)) := by
      simp [joinRunsN]
    rw [List.map_cons, hL, hR, ih]
    congr 1
    rw [List.map_map]
    refine List.map_congr_left ?_
    intro j _
    show (p.1 : ℤ) + (j : ℤ) = ((p.1 + j : ℕ) : ℤ)
    push_cast
    ring

/-- C2. For every pair of equal-length signal/time arrays and every mask at
least as long as the signal, the runs extracted from the truncated mask
cover, in ascending order, exactly the indices at which the truncated mask
is true; no two runs overlap and no run is empty. -/
theorem segmenter_runs_partition (sig tim : List ℚ) (mask : List Bool)
    (hlen : sig.length = tim.length) (hm : sig.length ≤ mask.length) :
    joinRuns (list_indices (mask.take sig.length)) =
      (trueIndices (mask.take sig.length) 0).map (fun n : ℕ => (n : ℤ)) ∧
    List.Chain' (fun p q : ℤ × ℤ => p.2 ≤ q.1) (list_indices (mask.take sig.length)) ∧
    ∀ p ∈ list_indices (mask.take sig.length), p.1 < p.2 := by
  rw [list_indices_eq]
  refine ⟨?_, ?_, ?_⟩
  · rw [joinRuns_map_castPair, (runsN_cover (mask.take sig.length) 0).1]
  · rw [List.chain'_map]
    refine List.Chain'.imp ?_ (runsN_chain (mask.take sig.length) 0).1
    intro a b h
    show ((a.2 : ℤ)) ≤ ((b.1 : ℤ))
    exact_mod_cast h
  · intro p hp
    rcases List.mem_map.mp hp with ⟨q, hq, rfl⟩
    have hb := (runsN_bounds (mask.take sig.length) 0).1 q hq
    show ((q.1 : ℤ)) < ((q.2 : ℤ))
    exact_mod_cast hb.2

/-- Witness for C2 on the boundary example of the specification:
signal [0,1,2,3,4], mask [false,true,true,false,true] gives runs covering
indices 1,2 and 4. -/
theorem segmenter_runs_partition_witness :
    joinRuns (list_indices
        (([false, true, true, false, true]).take (([0, 1, 2, 3, 4] : List ℚ)).length)) =
      [1, 2, 4] ∧
    joinRuns (list_indices
        (([false, true, true, false, true]).take (([0, 1, 2, 3, 4] : List ℚ)).length)) =
      (trueIndices (([false, true, true, false, true]).take
        (([0, 1, 2, 3, 4] : List ℚ)).length) 0).map (fun n : ℕ => (n : ℤ)) := by
  have h := segmenter_runs_partition [0, 1, 2, 3, 4] [9, 9, 9, 9, 9]
    [false, true, true, false, true] (by decide) (by decide)
  exact ⟨h.1.trans (by decide), h.1⟩

/-- Lines 421-435 of the source: the 1D-dataset branch walks the rows
(value, mask) of the column-stacked data; while the mask is 1 it appends
the value to a temporary buffer, on a masked row following a non-empty
buffer it closes the buffer into the output list, and a trailing non-empty
buffer is closed at the end. -/
def oneDGo : List ((ℚ × ℚ) × Bool) → List (ℚ × ℚ) → Bool → List (List (ℚ × ℚ)) →
    List (List (ℚ × ℚ))
  | [], buf, _, acc => if 0 < buf.length then acc ++ [buf] else acc
  | (v, mv) :: rest, buf, temp, acc =>
    if mv then oneDGo rest (buf ++ [v]) true acc
    else if temp then oneDGo rest [] false (if 0 < buf.length then acc ++ [buf] else acc)
    else oneDGo rest buf temp acc

/-- The 1D-dataset materialization: pair the signal and time values, pair
them with the truncated mask, and extract the runs of unmasked rows
(the temporary-dataset flag starts as True in the source). -/
def datasets_It_list (sig tim : List ℚ) (mask : List Bool) : List (List (ℚ × ℚ)) :=
  oneDGo ((sig.zip tim).zip mask) [] true []

lemma oneDGo_nil (buf : List (ℚ × ℚ)) (temp : Bool) (acc : List (List (ℚ × ℚ))) :
    oneDGo [] buf temp acc = if 0 < buf.length then acc ++ [buf] else acc := rfl

lemma oneDGo_cons_true (v : ℚ × ℚ) (rest : List ((ℚ × ℚ) × Bool)) (buf : List (ℚ × ℚ))
    (temp : Bool) (acc : List (List (ℚ × ℚ))) :
    oneDGo ((v, true) :: rest) buf temp acc = oneDGo rest (buf ++ [v]) true acc := by
  simp [oneDGo]

lemma oneDGo_cons_false_true (v : ℚ × ℚ) (rest : List ((ℚ × ℚ) × Bool)) (buf : List (ℚ × ℚ))
    (acc : List (List (ℚ × ℚ))) :
    oneDGo ((v, false) :: rest) buf true acc =
      oneDGo rest [] false (if 0 < buf.length then acc ++ [buf] else acc) := by
  simp [oneDGo]

lemma oneDGo_cons_false_false (v : ℚ × ℚ) (rest : List ((ℚ × ℚ) × Bool)) (buf : List (ℚ × ℚ))
    (acc : List (List (ℚ × ℚ))) :
    oneDGo ((v, false) :: rest) buf false acc = oneDGo rest buf false acc := by
  simp [oneDGo]

/-- With an empty buffer the initial value of the temporary-dataset flag is
irrelevant. -/
lemma oneDGo_start (z : List ((ℚ × ℚ) × Bool)) (acc : List (List (ℚ × ℚ))) :
    oneDGo z [] true acc = oneDGo z [] false acc := by
  cases z with
  | nil => rfl
  | cons h t =>
    rcases h with ⟨v, mv⟩
    cases mv
    · rw [oneDGo_cons_false_true, oneDGo_cons_false_false]
      simp
    · rw [oneDGo_cons_true, oneDGo_cons_true]

/-- The 1D-dataset walk produces exactly the value windows cut at the runsN
boundaries. -/
lemma oneDGo_spec (m : List Bool) (zs : List (ℚ × ℚ)) (hlen : zs.length = m.length) :
    ∀ (n k : ℕ), k + n = m.length → ∀ (acc : List (List (ℚ × ℚ))),
      (oneDGo ((zs.drop k).zip (m.drop k)) [] false acc =
        acc ++ (runsN (m.drop k) k none).map (fun p => (zs.drop p.1).take (p.2 - p.1))) ∧
      (∀ s, s < k → oneDGo ((zs.drop k).zip (m.drop k)) ((zs.drop s).take (k - s)) true acc =
        acc ++ (runsN (m.drop k) k (some s)).map (fun p => (zs.drop p.1).take (p.2 - p.1))) := by
  intro n
  induction n with
  | zero =>
    intro k hk acc
    have hmk : m.drop k = [] := List.drop_eq_nil_of_le (by omega)
    have hzk : zs.drop k = [] := List.drop_eq_nil_of_le (by omega)
    constructor
    · rw [hmk, hzk]
      simp [runsN, oneDGo]
    · intro s hs
      rw [hmk, hzk]
      have hbuf : ((zs.drop s).take (k - s)).length = k - s := by
        rw [List.length_take, List.length_drop]
        omega
      show oneDGo [] _ true acc = _
      rw [oneDGo_nil, if_pos (by rw [hbuf]; omega)]
      simp [runsN]
  | succ n ih =>
    intro k hk acc
    have hkm : k < m.length := by omega
    have hkz : k < zs.length := by omega
    have hmd : m.drop k = m[k] :: m.drop (k + 1) := List.drop_eq_getElem_cons hkm
    have hzd : zs.drop k = zs[k] :: zs.drop (k + 1) := List.drop_eq_getElem_cons hkz
    constructor
    · rw [hmd, hzd, List.zip_cons_cons]
      cases hb : m[k]
      · rw [oneDGo_cons_false_false]
        rw [(ih (k + 1) (by omega) acc).1]
        simp [runsN]
      · rw [oneDGo_cons_true]
        have hbuf : ([] : List (ℚ × ℚ)) ++ [zs[k]] = (zs.drop k).take (k + 1 - k) := by
          have h1 : k + 1 - k = 1 := by omega
          rw [h1, hzd]
          rfl
        rw [hbuf, (ih (k + 1) (by omega) acc).2 k (by omega)]
        simp [runsN]
    · intro s hs
      rw [hmd, hzd, List.zip_cons_cons]
      cases hb : m[k]
      · rw [oneDGo_cons_false_true]
        have hbuflen : ((zs.drop s).take (k - s)).length = k - s := by
          rw [List.length_take, List.length_drop]
          omega
        rw [if_pos (by rw [hbuflen]; omega)]
        rw [(ih (k + 1) (by omega) (acc ++ [(zs.drop s).take (k - s)])).1]
        simp [runsN]
      · rw [oneDGo_cons_true]
        have hext : (zs.drop s).take (k - s) ++ [zs[k]] = (zs.drop s).take (k + 1 - s) := by
          have h1 : k + 1 - s = (k - s) + 1 := by omega
          rw [h1, List.take_succ]
          congr 1
          rw [List.getElem?_drop]
          rw [show s + (k - s) = k from by omega]
          rw [List.getElem?_eq_getElem hkz]
          rfl
        rw [hext, (ih (k + 1) (by omega) acc).2 s (by omega)]
        simp [runsN]

/-- C8. The two materializations of the run segmenter agree: the
1D-dataset branch produces exactly the value slices of the paired
signal/time rows cut at the (start, stop) boundaries produced by the
Expression-dataset branch, in the same order. -/
theorem masked_materializations_agree (sig tim : List ℚ) (mask : List Bool)
    (h1 : sig.length = tim.length) (h2 : sig.length ≤ mask.length) :
    datasets_It_list sig tim (mask.take sig.length) =
      (list_indices (mask.take sig.length)).map
        (fun p => ((sig.zip tim).drop p.1.toNat).take (p.2 - p.1).toNat) := by
  have hlen : (sig.zip tim).length = (mask.take sig.length).length := by
    rw [List.length_zip, List.length_take]
    omega
  have hmain := (oneDGo_spec (mask.take sig.length) (sig.zip tim) hlen
    (mask.take sig.length).length 0 (by omega) []).1
  rw [datasets_It_list, oneDGo_start]
  simp only [List.drop_zero] at hmain
  rw [hmain, list_indices_eq, List.map_map]
  simp only [List.nil_append]
  refine List.map_congr_left ?_
  intro q _
  have ht1 : ((castPair q).1).toNat = q.1 := by
    simp [castPair]
  have ht2 : ((castPair q).2 - (castPair q).1).toNat = q.2 - q.1 := by
    simp only [castPair]
    omega
  show ((sig.zip tim).drop q.1).take (q.2 - q.1) =
    ((sig.zip tim).drop ((castPair q).1).toNat).take ((castPair q).2 - (castPair q).1).toNat
  rw [ht1, ht2]

/-- Witness for C8: signal [0,1,2,3,4], time [5,6,7,8,9],
mask [false,true,true,false,true,true] truncated to the signal length. -/
theorem masked_materializations_agree_witness :
    datasets_It_list [0, 1, 2, 3, 4] [5, 6, 7, 8, 9]
        (([false, true, true, false, true, true]).take (([0, 1, 2, 3, 4] : List ℚ)).length) =
      (list_indices (([false, true, true, false, true, true]).take
          (([0, 1, 2, 3, 4] : List ℚ)).length)).map
        (fun p => ((([0, 1, 2, 3, 4] : List ℚ).zip ([5, 6, 7, 8, 9] : List ℚ)).drop
          p.1.toNat).take (p.2 - p.1).toNat) :=
  masked_materializations_agree [0, 1, 2, 3, 4] [5, 6, 7, 8, 9]
    [false, true, true, false, true, true] (by decide) (by decide)

/-- The arithmetic mean of a list of rationals (numpy.mean). -/
def listMean (l : List ℚ) : ℚ := l.sum / (l.length : ℚ)

/-- Line 273 of the source: mean of current_values[max(0, k-5) : k+1]
times 1e9 (natural subtraction equals the Python max(0, k-5) clamp). -/
def i_before (c : List ℚ) (k : ℕ) : ℚ :=
  listMean ((c.drop (k - 5)).take (k + 1 - (k - 5))) * 10 ^ 9

/-- Line 274 of the source: mean of
current_values[k : min(len(current_values), k+5)] times 1e9. -/
def i_after (c : List ℚ) (k : ℕ) : ℚ :=
  listMean ((c.drop k).take (min c.length (k + 5) - k)) * 10 ^ 9

/-- The argument of the square root on line 278,
(i_before - i_after) / i_before. A zero divisor produces a non-finite
float (inf or nan) in the source; that outcome is modelled as none. -/
def sqrtArg (c : List ℚ) (k : ℕ) : Option ℚ :=
  if i_before c k = 0 then none
  else some ((i_before c k - i_after c k) / i_before c k)

/-- Line 278 of the source:
particle_radius = electrode_radius * numpy.sqrt((i_before - i_after)/i_before)
with electrode_radius = electrode_diam / 2. numpy.sqrt of a negative
argument is nan, and a nan or infinite argument stays non-finite; every
non-finite outcome is modelled as none. -/
noncomputable def particle_radius (c : List ℚ) (k : ℕ) (diam : ℚ) : Option ℝ :=
  (sqrtArg c k).bind (fun r =>
    if r < 0 then none else some (((diam : ℝ) / 2) * Real.sqrt ((r : ℝ))))

/-- The arithmetic mean of current[max(0, k-5) .. k] inclusive, written with
the explicit integer clamp of the specification. -/
def meanBefore (c : List ℚ) (k : ℕ) : ℚ :=
  listMean ((c.drop ((max 0 ((k : ℤ) - 5)).toNat)).take (k + 1 - (max 0 ((k : ℤ) - 5)).toNat))

/-- The arithmetic mean of current[k .. min(L, k+5)) as in the
specification. -/
def meanAfter (c : List ℚ) (k : ℕ) : ℚ :=
  listMean ((c.drop k).take (min c.length (k + 5) - k))

/-- C3. For every step event at a valid sample index whose before-window
mean is non-zero and whose relative current drop is non-negative, the
source computes currentBefore and currentAfter as the arithmetic means of
the inclusive before-window and half-open after-window (times the fixed
unit factor 1e9, which cancels), and the particle radius equals
(electrodeDiameter / 2) * sqrt((currentBefore - currentAfter) / currentBefore). -/
theorem step_estimator_means_radius (c : List ℚ) (k : ℕ) (diam : ℚ)
    (hk : k < c.length)
    (hb : meanBefore c k ≠ 0)
    (hr : 0 ≤ (meanBefore c k - meanAfter c k) / meanBefore c k) :
    i_before c k = 10 ^ 9 * meanBefore c k ∧
    i_after c k = 10 ^ 9 * meanAfter c k ∧
    particle_radius c k diam =
      some (((diam : ℝ) / 2) *
        Real.sqrt (((meanBefore c k - meanAfter c k) / meanBefore c k : ℚ) : ℝ)) := by
  have hlo : (max 0 ((k : ℤ) - 5)).toNat = k - 5 := by omega
  have hmb : meanBefore c k = listMean ((c.drop (k - 5)).take (k + 1 - (k - 5))) := by
    rw [meanBefore, hlo]
  have hib : i_before c k = 10 ^ 9 * meanBefore c k := by
    rw [i_before, hmb, mul_comm]
  have hia : i_after c k = 10 ^ 9 * meanAfter c k := by
    rw [i_after, meanAfter, mul_comm]
  have hE : (10 ^ 9 : ℚ) ≠ 0 := by norm_num
  have hbne : i_before c k ≠ 0 := by
    rw [hib]
    exact mul_ne_zero hE hb
  have hratio : (i_before c k - i_after c k) / i_before c k =
      (meanBefore c k - meanAfter c k) / meanBefore c k := by
    rw [hib, hia, ← mul_sub, mul_comm (10 ^ 9 : ℚ) (meanBefore c k - meanAfter c k),
      mul_comm (10 ^ 9 : ℚ) (meanBefore c k), mul_div_mul_right _ _ hE]
  refine ⟨hib, hia, ?_⟩
  rw [particle_radius, sqrtArg, if_neg hbne]
  simp only [Option.some_bind]
  rw [hratio, if_neg (not_lt.mpr hr)]

/-- Witness for C3 at current = [4, 1], k = 0, diameter 10. -/
theorem step_estimator_means_radius_witness :
    i_before [(4 : ℚ), 1] 0 = 10 ^ 9 * meanBefore [(4 : ℚ), 1] 0 ∧
    i_after [(4 : ℚ), 1] 0 = 10 ^ 9 * meanAfter [(4 : ℚ), 1] 0 ∧
    particle_radius [(4 : ℚ), 1] 0 10 =
      some ((((10 : ℚ) : ℝ)) / 2 *
        Real.sqrt (((meanBefore [(4 : ℚ), 1] 0 - meanAfter [(4 : ℚ), 1] 0) /
          meanBefore [(4 : ℚ), 1] 0 : ℚ) : ℝ)) := by
  have hmb : meanBefore [(4 : ℚ), 1] 0 = listMean [4] := rfl
  have hma : meanAfter [(4 : ℚ), 1] 0 = listMean [4, 1] := rfl
  exact step_estimator_means_radius [(4 : ℚ), 1] 0 10 (by decide)
    (by rw [hmb]; norm_num [listMean])
    (by rw [hmb, hma]; norm_num [listMean])

/-- C7 counterexample: at current = [1, 2], k = 0 (currentBefore = 1e9,
currentAfter = 1.5e9 < ... i.e. currentBefore < currentAfter) the source
raises no InvalidStepPolarity error: it evaluates numpy.sqrt on the
negative argument -1/2, producing the non-finite (nan) outcome modelled as
none, and no positive radius. -/
theorem step_negative_step_not_error :
    i_before [(1 : ℚ), 2] 0 < i_after [(1 : ℚ), 2] 0 ∧
    particle_radius [(1 : ℚ), 2] 0 10 = none := by
  have e1 : i_before [(1 : ℚ), 2] 0 = listMean [1] * 10 ^ 9 := rfl
  have e2 : i_after [(1 : ℚ), 2] 0 = listMean [1, 2] * 10 ^ 9 := rfl
  have h1 : i_before [(1 : ℚ), 2] 0 = 10 ^ 9 := by
    rw [e1]
    norm_num [listMean]
  have h2 : i_after [(1 : ℚ), 2] 0 = (3 / 2) * 10 ^ 9 := by
    rw [e2]
    norm_num [listMean]
  have hs : sqrtArg [(1 : ℚ), 2] 0 = some (-(1 / 2)) := by
    rw [sqrtArg, h1, h2]
    rw [if_neg (by norm_num)]
    norm_num
  refine ⟨by rw [h1, h2]; norm_num, ?_⟩
  rw [particle_radius, hs]
  simp only [Option.some_bind]
  rw [if_pos (by norm_num)]

/-- C7 amended. For every event: if currentBefore = currentAfter (and the
mean is non-zero) the radius is 0; if 0 < currentBefore < currentAfter the
square-root argument is negative and the result is the non-finite nan
outcome (none) - no InvalidStepPolarity error exists in the source and no
positive radius is returned. -/
theorem step_polarity_behavior (c : List ℚ) (k : ℕ) (diam : ℚ) :
    (i_before c k = i_after c k → i_before c k ≠ 0 →
      particle_radius c k diam = some 0) ∧
    (0 < i_before c k → i_before c k < i_after c k →
      particle_radius c k diam = none) := by
  constructor
  · intro heq hne
    rw [particle_radius, sqrtArg, if_neg hne, heq, sub_self, zero_div]
    simp only [Option.some_bind]
    rw [if_neg (lt_irrefl 0)]
    norm_num
  · intro hpos hlt
    rw [particle_radius, sqrtArg, if_neg (ne_of_gt hpos)]
    have hneg : (i_before c k - i_after c k) / i_before c k < 0 :=
      div_neg_of_neg_of_pos (by linarith) hpos
    simp only [Option.some_bind]
    rw [if_pos hneg]

/-- Witness for the amended C7: a flat signal gives radius 0, a rising
step gives the nan outcome. -/
theorem step_polarity_behavior_witness :
    particle_radius [(1 : ℚ)] 0 10 = some 0 ∧
    particle_radius [(1 : ℚ), 2] 0 10 = none := by
  constructor
  · refine (step_polarity_behavior [(1 : ℚ)] 0 10).1 ?_ ?_
    · rfl
    · have e1 : i_before [(1 : ℚ)] 0 = listMean [1] * 10 ^ 9 := rfl
      rw [e1]
      norm_num [listMean]
  · have e1 : i_before [(1 : ℚ), 2] 0 = listMean [1] * 10 ^ 9 := rfl
    have e2 : i_after [(1 : ℚ), 2] 0 = listMean [1, 2] * 10 ^ 9 := rfl
    exact (step_polarity_behavior [(1 : ℚ), 2] 0 10).2
      (by rw [e1]; norm_num [listMean])
      (by rw [e1, e2]; norm_num [listMean])

/-- Auxiliary splitter: first group and remaining groups of a Python-style
single-character str.split (empty pieces are kept). -/
def splitCharAux (sep : Char) : List Char → List Char × List (List Char)
  | [] => ([], [])
  | c :: rest =>
    if c = sep then ([], (splitCharAux sep rest).1 :: (splitCharAux sep rest).2)
    else (c :: (splitCharAux sep rest).1, (splitCharAux sep rest).2)

/-- Python str.split(sep) for a one-character separator: always returns at
least one (possibly empty) group. -/
def splitChar (sep : Char) (s : List Char) : List (List Char) :=
  (splitCharAux sep s).1 :: (splitCharAux sep s).2

/-- Python sep.join for a one-character separator. -/
def joinSep (sep : Char) : List (List Char) → List Char
  | [] => []
  | [x] => x
  | x :: y :: t => x ++ sep :: joinSep sep (y :: t)

/-- The character of a decimal digit. -/
def digitChar (d : ℕ) : Char := Char.ofNat (48 + d)

/-- Python int() on a string of decimal digits. -/
def strToNat (s : List Char) : ℕ := s.foldl (fun a c => 10 * a + (c.toNat - 48)) 0

/-- Decimal digits of v, least significant first, with structural fuel. -/
def digitsRev : ℕ → ℕ → List ℕ
  | 0, _ => []
  | _ + 1, 0 => []
  | fuel + 1, v + 1 => ((v + 1) % 10) :: digitsRev fuel ((v + 1) / 10)

/-- Python str() of a natural number. -/
def decimalRepr (v : ℕ) : List Char :=
  if v = 0 then ['0'] else ((digitsRev v v).reverse).map digitChar

/-- The Python format specifier 02d: at least two characters, left-padded
with one 0 when the value has a single digit, and silently wider when the
value needs three or more digits. -/
def format02 (v : ℕ) : List Char :=
  if v < 10 then '0' :: decimalRepr v else decimalRepr v

/-- Line 75 of the source: the directory of the start path,
slash-join of all slash-groups but the last, plus a trailing slash. -/
def filepath_dir (p : List Char) : List Char :=
  joinSep '/' ((splitChar '/' p).dropLast) ++ ['/']

/-- Line 78 of the source: the filename, the last slash-group of the path. -/
def filename_full (p : List Char) : List Char :=
  (splitChar '/' p).getLastD []

/-- Line 81 of the source: the filename with the final underscore token
removed (underscore-join of all underscore-groups but the last). -/
def filename_start (p : List Char) : List Char :=
  joinSep '_' ((splitChar '_' (filename_full p)).dropLast)

/-- Line 84 of the source: the root, filename_start with its last two
characters removed. -/
def filename_root (p : List Char) : List Char :=
  (filename_start p).take ((filename_start p).length - 2)

/-- Line 87 of the source: the final underscore token of the filename. -/
def filename_suffix (p : List Char) : List Char :=
  (splitChar '_' (filename_full p)).getLastD []

/-- Line 90 of the source: the start index, the last two characters of
filename_start parsed as a decimal number. -/
def start_no (p : List Char) : ℕ :=
  strToNat ((filename_start p).drop ((filename_start p).length - 2))

/-- Lines 150-151 of the source: the identifier of experiment i is
filename_root followed by the 02d-formatted index i + start_no. -/
def resolveIds (p : List Char) (n : ℕ) : List (List Char) :=
  (List.range n).map (fun i => filename_root p ++ format02 (i + start_no p))

/-- Line 155 of the source: the file path of experiment i is the directory,
the identifier, an underscore and the suffix token. -/
def resolvePaths (p : List Char) (n : ℕ) : List (List Char) :=
  (List.range n).map (fun i =>
    filepath_dir p ++ (filename_root p ++ format02 (i + start_no p)) ++ '_' :: filename_suffix p)

lemma joinSep_cons_cons (sep : Char) (x y : List Char) (t : List (List Char)) :
    joinSep sep (x :: y :: t) = x ++ sep :: joinSep sep (y :: t) := rfl

lemma joinSep_singleton (sep : Char) (x : List Char) : joinSep sep [x] = x := rfl

lemma splitCharAux_cons (sep c : Char) (rest : List Char) :
    splitCharAux sep (c :: rest) =
      if c = sep then ([], (splitCharAux sep rest).1 :: (splitCharAux sep rest).2)
      else (c :: (splitCharAux sep rest).1, (splitCharAux sep rest).2) := rfl

/-- sep.join is a left inverse of split(sep). -/
lemma joinSep_splitChar (sep : Char) (xs : List Char) :
    joinSep sep (splitChar sep xs) = xs := by
  induction xs with
  | nil => rfl
  | cons c rest ih =>
    rw [splitChar] at ih ⊢
    by_cases hc : c = sep
    · rw [splitCharAux_cons, if_pos hc]
      dsimp only
      rw [joinSep_cons_cons, ih, hc]
      rfl
    · rw [splitCharAux_cons, if_neg hc]
      dsimp only
      cases hA2 : (splitCharAux sep rest).2 with
      | nil =>
        rw [hA2] at ih
        rw [joinSep_singleton] at ih
        rw [joinSep_singleton, ih]
      | cons y t =>
        rw [hA2] at ih
        rw [joinSep_cons_cons] at ih
        rw [joinSep_cons_cons, List.cons_append, ih]

lemma splitCharAux_append (sep : Char) (xs ys : List Char) :
    splitCharAux sep (xs ++ sep :: ys) =
      ((splitCharAux sep xs).1, (splitCharAux sep xs).2 ++ splitChar sep ys) := by
  induction xs with
  | nil =>
    show splitCharAux sep (sep :: ys) = _
    rw [splitCharAux_cons, if_pos rfl]
    rfl
  | cons c rest ih =>
    by_cases hc : c = sep
    · show splitCharAux sep (c :: (rest ++ sep :: ys)) = _
      rw [splitCharAux_cons, if_pos hc, ih, splitCharAux_cons, if_pos hc]
      dsimp only
      rw [List.cons_append]
    · show splitCharAux sep (c :: (rest ++ sep :: ys)) = _
      rw [splitCharAux_cons, if_neg hc, ih, splitCharAux_cons, if_neg hc]

/-- Splitting across an explicit separator concatenates the two splits. -/
lemma splitChar_append (sep : Char) (xs ys : List Char) :
    splitChar sep (xs ++ sep :: ys) = splitChar sep xs ++ splitChar sep ys := by
  show (splitCharAux sep (xs ++ sep :: ys)).1 :: (splitCharAux sep (xs ++ sep :: ys)).2 =
    ((splitCharAux sep xs).1 :: (splitCharAux sep xs).2) ++ splitChar sep ys
  rw [splitCharAux_append]
  dsimp only
  rw [List.cons_append]

/-- A group free of the separator splits into itself. -/
lemma splitChar_no_sep (sep : Char) (xs : List Char) (h : sep ∉ xs) :
    splitChar sep xs = [xs] := by
  induction xs with
  | nil => rfl
  | cons c rest ih =>
    have hc : ¬ c = sep := by
      intro hcc
      exact h (by rw [hcc]; exact List.mem_cons_self _ _)
    have hrest : sep ∉ rest := fun hm => h (List.mem_cons_of_mem _ hm)
    have h2 := ih hrest
    rw [splitChar] at h2
    injection h2 with h21 h22
    rw [splitChar, splitCharAux_cons, if_neg hc]
    dsimp only
    rw [h21, h22]

/-- C4. For every well-formed start path dir/<root><d1><d2>_<suffix>
(two decimal index digits, no slash in the filename, no underscore in the
suffix token) and every count n, the resolver produces the n identifiers
root{idx:02d} and the n paths dir/root{idx:02d}_suffix for the consecutive
indices idx = 10*d1+d2, ..., 10*d1+d2+n-1. -/
theorem sequence_resolver_enumerates (dir root suffix : List Char) (d1 d2 n : ℕ)
    (hd1 : d1 < 10) (hd2 : d2 < 10) (hn : 1 ≤ n)
    (hslash : '/' ∉ root ++ [digitChar d1, digitChar d2] ++ '_' :: suffix)
    (hus : '_' ∉ suffix) :
    resolveIds (dir ++ '/' :: (root ++ [digitChar d1, digitChar d2] ++ '_' :: suffix)) n =
      (List.range n).map (fun i => root ++ format02 (10 * d1 + d2 + i)) ∧
    resolvePaths (dir ++ '/' :: (root ++ [digitChar d1, digitChar d2] ++ '_' :: suffix)) n =
      (List.range n).map (fun i =>
        dir ++ '/' :: ((root ++ format02 (10 * d1 + d2 + i)) ++ '_' :: suffix)) := by
  set stem := root ++ [digitChar d1, digitChar d2] ++ '_' :: suffix with hstem
  set path := dir ++ '/' :: stem with hpath
  have hsp : splitChar '/' path = splitChar '/' dir ++ [stem] := by
    rw [hpath, splitChar_append, splitChar_no_sep '/' stem hslash]
  have hdir : filepath_dir path = dir ++ ['/'] := by
    rw [filepath_dir, hsp, List.dropLast_concat, joinSep_splitChar]
  have hfull : filename_full path = stem := by
    rw [filename_full, hsp]
    exact List.getLastD_concat _ _ _
  have hstem2 : stem = (root ++ [digitChar d1, digitChar d2]) ++ '_' :: suffix := by
    rw [hstem, List.append_assoc]
  have hsp2 : splitChar '_' stem =
      splitChar '_' (root ++ [digitChar d1, digitChar d2]) ++ [suffix] := by
    rw [hstem2, splitChar_append, splitChar_no_sep '_' suffix hus]
  have hfstart : filename_start path = root ++ [digitChar d1, digitChar d2] := by
    rw [filename_start, hfull, hsp2, List.dropLast_concat, joinSep_splitChar]
  have hfsuffix : filename_suffix path = suffix := by
    rw [filename_suffix, hfull, hsp2]
    exact List.getLastD_concat _ _ _
  have hlen : (root ++ [digitChar d1, digitChar d2]).length - 2 = root.length := by
    simp
  have hroot : filename_root path = root := by
    rw [filename_root, hfstart, hlen]
    exact List.take_left root [digitChar d1, digitChar d2]
  have hdrop : (root ++ [digitChar d1, digitChar d2]).drop root.length =
      [digitChar d1, digitChar d2] := List.drop_left root _
  have hchar1 : (digitChar d1).toNat = 48 + d1 := by
    interval_cases d1 <;> rfl
  have hchar2 : (digitChar d2).toNat = 48 + d2 := by
    interval_cases d2 <;> rfl
  have hno : start_no path = 10 * d1 + d2 := by
    rw [start_no, hfstart, hlen, hdrop, strToNat]
    simp only [List.foldl_cons, List.foldl_nil, hchar1, hchar2]
    omega
  constructor
  · rw [resolveIds, hroot, hno]
    refine List.map_congr_left ?_
    intro i _
    rw [Nat.add_comm i (10 * d1 + d2)]
  · rw [resolvePaths, hroot, hno, hdir, hfsuffix]
    refine List.map_congr_left ?_
    intro i _
    rw [Nat.add_comm i (10 * d1 + d2)]
    simp [List.append_assoc]

/-- Witness for C4 at the specification example path dir/root07_C01.ext
with n = 3. -/
theorem sequence_resolver_enumerates_witness :
    resolveIds ("dir/root07_C01.ext".toList) 3 =
      ["root07".toList, "root08".toList, "root09".toList] ∧
    resolvePaths ("dir/root07_C01.ext".toList) 3 =
      ["dir/root07_C01.ext".toList, "dir/root08_C01.ext".toList,
        "dir/root09_C01.ext".toList] := by
  have hpath : "dir/root07_C01.ext".toList =
      "dir".toList ++ '/' ::
        ("root".toList ++ [digitChar 0, digitChar 7] ++ '_' :: "C01.ext".toList) := by
    decide
  have h := sequence_resolver_enumerates "dir".toList "root".toList "C01.ext".toList
    0 7 3 (by norm_num) (by norm_num) (by norm_num) (by decide) (by decide)
  rw [hpath]
  exact ⟨h.1.trans (by decide), h.2.trans (by decide)⟩

lemma digitsRev_zero (fuel : ℕ) : digitsRev fuel 0 = [] := by
  cases fuel <;> rfl

lemma digitsRev_len_pos (fuel v : ℕ) (h1 : 1 ≤ v) (hf : v ≤ fuel) :
    1 ≤ (digitsRev fuel v).length := by
  cases fuel with
  | zero => omega
  | succ f =>
    cases v with
    | zero => omega
    | succ w => simp [digitsRev]

lemma digitsRev_len_ge2 (fuel v : ℕ) (h10 : 10 ≤ v) (hf : v ≤ fuel) :
    2 ≤ (digitsRev fuel v).length := by
  cases fuel with
  | zero => omega
  | succ f =>
    cases v with
    | zero => omega
    | succ w =>
      have hd : 1 ≤ (w + 1) / 10 := by omega
      have hd2 : (w + 1) / 10 ≤ f := by omega
      have := digitsRev_len_pos f ((w + 1) / 10) hd hd2
      simp [digitsRev]
      omega

lemma digitsRev_len_ge3 (fuel v : ℕ) (h100 : 100 ≤ v) (hf : v ≤ fuel) :
    3 ≤ (digitsRev fuel v).length := by
  cases fuel with
  | zero => omega
  | succ f =>
    cases v with
    | zero => omega
    | succ w =>
      have hd : 10 ≤ (w + 1) / 10 := by omega
      have hd2 : (w + 1) / 10 ≤ f := by omega
      have := digitsRev_len_ge2 f ((w + 1) / 10) hd hd2
      simp [digitsRev]
      omega

lemma digitsRev_len_lt10 (fuel v : ℕ) (h : v < 10) :
    (digitsRev fuel v).length ≤ 1 := by
  cases fuel with
  | zero => simp [digitsRev]
  | succ f =>
    cases v with
    | zero => simp [digitsRev_zero]
    | succ w =>
      have hd : (w + 1) / 10 = 0 := Nat.div_eq_of_lt h
      simp [digitsRev, hd, digitsRev_zero]

lemma digitsRev_len_lt100 (fuel v : ℕ) (h : v < 100) :
    (digitsRev fuel v).length ≤ 2 := by
  cases fuel with
  | zero => simp [digitsRev]
  | succ f =>
    cases v with
    | zero => simp [digitsRev_zero]
    | succ w =>
      have hd : (w + 1) / 10 < 10 := by omega
      have := digitsRev_len_lt10 f ((w + 1) / 10) hd
      simp [digitsRev]
      omega

lemma decimalRepr_length (v : ℕ) : (decimalRepr v).length = (digitsRev v v).length ∨ v = 0 := by
  by_cases hv : v = 0
  · right
    exact hv
  · left
    rw [decimalRepr, if_neg hv]
    simp

/-- C5 counterexample: for start path d/r99_C.x and n = 2 the resolver
produces the identifiers r99 and r100 (the second one three digits wide)
and fails with no IndexOverflow. -/
theorem resolver_index_overflow_counterexample :
    resolveIds ("d/r99_C.x".toList) 2 = ["r99".toList, "r100".toList] ∧
    (format02 100).length = 3 := by
  constructor
  · decide
  · decide

/-- C5 amended: the resolver never fails on index overflow; it always
produces n identifiers, and the 02d formatting is exactly two characters
when the value is at most 99 and widens silently to three or more
characters when the value exceeds 99. -/
theorem resolver_format_width (p : List Char) (n v : ℕ) :
    (resolveIds p n).length = n ∧
    (v ≤ 99 → (format02 v).length = 2) ∧
    (99 < v → 3 ≤ (format02 v).length) := by
  refine ⟨by simp [resolveIds], ?_, ?_⟩
  · intro hv
    rw [format02]
    by_cases h10 : v < 10
    · rw [if_pos h10]
      by_cases hv0 : v = 0
      · subst hv0
        rfl
      · rw [decimalRepr, if_neg hv0]
        have hge := digitsRev_len_pos v v (by omega) (le_refl v)
        have hle := digitsRev_len_lt10 v v h10
        simp
        omega
    · rw [if_neg h10]
      rw [decimalRepr, if_neg (by omega)]
      have hge := digitsRev_len_ge2 v v (by omega) (le_refl v)
      have hle := digitsRev_len_lt100 v v (by omega)
      simp
      omega
  · intro hv
    rw [format02, if_neg (by omega), decimalRepr, if_neg (by omega)]
    have hge := digitsRev_len_ge3 v v (by omega) (le_refl v)
    simp
    omega

/-- Witness for the amended C5: two files starting at index 99 resolve to
two identifiers; 7 formats to two characters and 100 to three. -/
theorem resolver_format_width_witness :
    (resolveIds ("d/r99_C.x".toList) 2).length = 2 ∧
    (format02 7).length = 2 ∧ 3 ≤ (format02 100).length :=
  ⟨(resolver_format_width ("d/r99_C.x".toList) 2 7).1,
    (resolver_format_width ("d/r99_C.x".toList) 2 7).2.1 (by norm_num),
    (resolver_format_width ("d/r99_C.x".toList) 2 100).2.2 (by norm_num)⟩

/-- Lines 103-110 of the source: sample max(1, nb_files - blackCount)
colors from the colormap collaborator; iff nb_files - blackCount equals 1
(as a signed difference) and the first sampled color is fully transparent
black, replace it by opaque black. A colormap result shorter than the
requested single sample cannot be indexed by the source; the empty case is
returned unchanged here. -/
def assignedColors (sample : ℕ → List (ℕ × ℕ × ℕ × ℕ)) (nb_files blackCount : ℕ) :
    List (ℕ × ℕ × ℕ × ℕ) :=
  match sample (max 1 (nb_files - blackCount)) with
  | [] => []
  | c :: rest =>
    if (nb_files : ℤ) - (blackCount : ℤ) = 1 ∧ c = (0, 0, 0, 0) then (0, 0, 0, 255) :: rest
    else c :: rest

/-- C9 counterexample: with nb_files = 1 and one excluded name, exactly one
color is sampled (max(1, 1-1) = 1) and a fully transparent black sample is
NOT substituted, because the source tests nb_files - excluded == 1, which
is 0 here. -/
theorem color_substitution_skipped :
    max 1 (1 - 1) = 1 ∧
    assignedColors (fun _ => [(0, 0, 0, 0)]) 1 1 = [(0, 0, 0, 0)] := by
  constructor
  · rfl
  · rfl

/-- C9 amended: the opaque-black substitution happens exactly when
nb_files - excluded equals 1 (not whenever a single color is sampled) and
the collaborator returns transparent black; in particular with one file
and no exclusions the assigned color is opaque black. -/
theorem color_substitution_rule (sample : ℕ → List (ℕ × ℕ × ℕ × ℕ)) (nb black : ℕ)
    (c : ℕ × ℕ × ℕ × ℕ) (rest : List (ℕ × ℕ × ℕ × ℕ))
    (h1 : (nb : ℤ) - (black : ℤ) = 1)
    (h2 : sample (max 1 (nb - black)) = c :: rest) :
    assignedColors sample nb black =
      (if c = (0, 0, 0, 0) then (0, 0, 0, 255) else c) :: rest := by
  unfold assignedColors
  rw [h2]
  dsimp only
  by_cases hc : c = (0, 0, 0, 0)
  · rw [if_pos hc,
      if_pos (show (nb : ℤ) - (black : ℤ) = 1 ∧ c = (0, 0, 0, 0) from ⟨h1, hc⟩)]
  · rw [if_neg hc,
      if_neg (show ¬((nb : ℤ) - (black : ℤ) = 1 ∧ c = (0, 0, 0, 0)) from
        fun hand => hc hand.2)]

/-- Witness for the amended C9: one file, no exclusions, transparent-black
collaborator: the assigned color is opaque black. -/
theorem color_substitution_rule_witness :
    assignedColors (fun _ => [(0, 0, 0, 0)]) 1 0 = [(0, 0, 0, 255)] := by
  have h := color_substitution_rule (fun _ => [(0, 0, 0, 0)]) 1 0 (0, 0, 0, 0) []
    (by norm_num) rfl
  simpa using h
